import Mathlib

/-!
Verification of the FEC chunk reception/reconstruction core
(`src/fec.h`, `src/fec.cpp`).

The decoder, encoder and batch helper are shallowly embedded from
`fec.cpp`; the chunk-identity tracker from the inline code in `fec.h`.
The wirehair codec is an opaque external collaborator and is modelled as
an explicit oracle parameter.  Parts of the repository that `fec.h`
declares but whose implementation is not present in the sources at hand
(the cm256 bounded codec path, the random repair-id assignment, the
`overwrite` guard of `BuildChunk`, and the open-addressed sparse set)
are modelled from the specification; each such definition carries a
doc comment starting with `Modelled from the spec:`.
-/

set_option maxHeartbeats 1000000

set_option maxRecDepth 16384

namespace FEC

def FEC_CHUNK_SIZE : ℕ := 1152

def CM256_MAX_CHUNKS : ℕ := 27

/-- `#define DIV_CEIL(a, b) (((a) + (b) - 1) / (b))` from `fec.cpp`. -/
def DIV_CEIL (a b : ℕ) : ℕ := (a + b - 1) / b

/-! ### Indexed list access with a default

`getLD d l i` is `l[i]`, defaulting to `d` out of range.  It embeds
`std::vector` subscripting (always guarded by a bound check or an assert
in the source). -/

def getLD {α : Type} (d : α) : List α → ℕ → α
  | [], _ => d
  | x :: _, 0 => x
  | _ :: l, i + 1 => getLD d l i

theorem getLD_set_self {α : Type} (a d : α) :
    ∀ (l : List α) (i : ℕ), i < l.length → getLD d (l.set i a) i = a
  | [], i, h => absurd h (by simp)
  | _ :: _, 0, _ => rfl
  | _ :: l, i + 1, h => getLD_set_self a d l i (by simpa using h)

theorem getLD_set_ne {α : Type} (a d : α) :
    ∀ (l : List α) (i j : ℕ), i ≠ j → getLD d (l.set i a) j = getLD d l j
  | [], _, _, _ => rfl
  | _ :: _, 0, 0, h => absurd rfl h
  | _ :: _, 0, _ + 1, _ => rfl
  | _ :: _, _ + 1, 0, _ => rfl
  | _ :: l, i + 1, j + 1, h => getLD_set_ne a d l i j (fun e => h (by rw [e]))

theorem getLD_of_le {α : Type} (d : α) :
    ∀ (l : List α) (i : ℕ), l.length ≤ i → getLD d l i = d
  | [], _, _ => rfl
  | _ :: _, 0, h => absurd h (by simp)
  | _ :: l, i + 1, h => getLD_of_le d l i (by simpa using h)

theorem getLD_set_keep {α : Type} (a d : α) (l : List α) (i j : ℕ)
    (h : getLD d l i = a) : getLD d (l.set j a) i = a := by
  rcases eq_or_ne j i with rfl | hne
  · rcases Nat.lt_or_ge j l.length with hlt | hge
    · exact getLD_set_self a d l j hlt
    · rw [List.set_eq_of_length_le hge]; exact h
  · rw [getLD_set_ne a d l j i hne]; exact h

theorem getLD_replicate_false :
    ∀ (n i : ℕ), getLD false (List.replicate n false) i = false
  | 0, _ => rfl
  | _ + 1, 0 => rfl
  | n + 1, i + 1 => getLD_replicate_false n i

/-! ### Chunk identity tracker (`BlockChunkRecvdTracker`, `fec.h`)

The dense part is the `std::vector<bool> data_chunk_recvd_flags`.  The
sparse part is the `open_hash_set<uint32_t, ChunkIdIsNull, ChunkIdHasher>
fec_chunks_recvd`; its implementation (`open_hash_set.h`) is not among the
sources at hand, so it is modelled from the spec as a plain set of
identifiers: `find_fast` is membership and `insert` records an absent
element (returning a pair whose `second` reports success, as for
`std::set::insert`). -/

structure BlockChunkRecvdTracker where
  data_chunk_recvd_flags : List Bool
  /-- Modelled from the spec: the open-addressed sparse set
  `fec_chunks_recvd` (its source `open_hash_set.h` is absent), as the
  plain set of repair-chunk identifiers it contains. -/
  fec_chunks_recvd : List ℕ

/-- `BlockChunkRecvdTracker(size_t data_chunks)`: a dense flag array of
length `data_chunks`, all unset, and an empty sparse set. -/
def BlockChunkRecvdTracker.init (data_chunks : ℕ) : BlockChunkRecvdTracker :=
  ⟨List.replicate data_chunks false, []⟩

/-- `BlockChunkRecvdTracker::CheckPresentAndMarkRecvd` (`fec.h`
lines 45-58): dense flag test-and-set for `chunk_id` below the dense
size, sparse find/insert otherwise; returns whether the id was already
present. -/
def CheckPresentAndMarkRecvd (t : BlockChunkRecvdTracker) (chunk_id : ℕ) :
    BlockChunkRecvdTracker × Bool :=
  if chunk_id < t.data_chunk_recvd_flags.length then
    if getLD false t.data_chunk_recvd_flags chunk_id then (t, true)
    else ({ t with data_chunk_recvd_flags := t.data_chunk_recvd_flags.set chunk_id true }, false)
  else
    if chunk_id ∈ t.fec_chunks_recvd then (t, true)
    else ({ t with fec_chunks_recvd := chunk_id :: t.fec_chunks_recvd }, false)

/-- `BlockChunkRecvdTracker::CheckPresent` (`fec.h` lines 60-63). -/
def CheckPresent (t : BlockChunkRecvdTracker) (chunk_id : ℕ) : Bool :=
  if chunk_id < t.data_chunk_recvd_flags.length then
    getLD false t.data_chunk_recvd_flags chunk_id
  else decide (chunk_id ∈ t.fec_chunks_recvd)

/-- A sequence of `CheckPresentAndMarkRecvd` calls, keeping the tracker. -/
def runMarks (t : BlockChunkRecvdTracker) (l : List ℕ) : BlockChunkRecvdTracker :=
  l.foldl (fun a id => (CheckPresentAndMarkRecvd a id).1) t

theorem mark_snd_eq_checkPresent (t : BlockChunkRecvdTracker) (chunk_id : ℕ) :
    (CheckPresentAndMarkRecvd t chunk_id).2 = CheckPresent t chunk_id := by
  unfold CheckPresentAndMarkRecvd CheckPresent
  by_cases h : chunk_id < t.data_chunk_recvd_flags.length
  · rw [if_pos h, if_pos h]
    cases hf : getLD false t.data_chunk_recvd_flags chunk_id <;> simp [hf]
  · rw [if_neg h, if_neg h]
    by_cases hm : chunk_id ∈ t.fec_chunks_recvd <;> simp [hm]

theorem checkPresent_mark (t : BlockChunkRecvdTracker) (chunk_id j : ℕ) :
    CheckPresent (CheckPresentAndMarkRecvd t chunk_id).1 j
      = (decide (j = chunk_id) || CheckPresent t j) := by
  by_cases h : chunk_id < t.data_chunk_recvd_flags.length
  · cases hf : getLD false t.data_chunk_recvd_flags chunk_id with
    | true =>
        have h1 : (CheckPresentAndMarkRecvd t chunk_id).1 = t := by
          unfold CheckPresentAndMarkRecvd; rw [if_pos h, hf]; simp
        rw [h1]
        by_cases hj : j = chunk_id
        · subst hj
          have : CheckPresent t j = true := by
            unfold CheckPresent; rw [if_pos h]; exact hf
          simp [this]
        · simp [hj]
    | false =>
        have h1 : (CheckPresentAndMarkRecvd t chunk_id).1
            = { t with data_chunk_recvd_flags := t.data_chunk_recvd_flags.set chunk_id true } := by
          unfold CheckPresentAndMarkRecvd; rw [if_pos h, hf]; simp
        rw [h1]
        unfold CheckPresent
        simp only [List.length_set]
        by_cases hj : j = chunk_id
        · subst hj
          rw [if_pos h, if_pos h, getLD_set_self _ _ _ _ h, hf]
          simp
        · by_cases hjl : j < t.data_chunk_recvd_flags.length
          · rw [if_pos hjl, if_pos hjl,
              getLD_set_ne _ _ _ _ _ (fun e => hj e.symm)]
            simp [hj]
          · rw [if_neg hjl, if_neg hjl]
            simp [hj]
  · by_cases hm : chunk_id ∈ t.fec_chunks_recvd
    · have h1 : (CheckPresentAndMarkRecvd t chunk_id).1 = t := by
        unfold CheckPresentAndMarkRecvd; rw [if_neg h, if_pos hm]
      rw [h1]
      by_cases hj : j = chunk_id
      · subst hj
        have : CheckPresent t j = true := by
          unfold CheckPresent; rw [if_neg h]; simpa using hm
        simp [this]
      · simp [hj]
    · have h1 : (CheckPresentAndMarkRecvd t chunk_id).1
          = { t with fec_chunks_recvd := chunk_id :: t.fec_chunks_recvd } := by
        unfold CheckPresentAndMarkRecvd; rw [if_neg h, if_neg hm]
      rw [h1]
      unfold CheckPresent
      by_cases hjl : j < t.data_chunk_recvd_flags.length
      · have hj : j ≠ chunk_id := fun e => h (e ▸ hjl)
        rw [if_pos hjl, if_pos hjl]
        simp [hj]
      · rw [if_neg hjl, if_neg hjl]
        by_cases hj : j = chunk_id
        · subst hj; simp
        · simp [hj]

theorem checkPresent_runMarks_mono (j : ℕ) :
    ∀ (l : List ℕ) (t : BlockChunkRecvdTracker), CheckPresent t j = true →
      CheckPresent (runMarks t l) j = true
  | [], _, h => h
  | x :: l, t, h => by
      have hstep : CheckPresent (CheckPresentAndMarkRecvd t x).1 j = true := by
        rw [checkPresent_mark]; simp [h]
      simpa [runMarks] using checkPresent_runMarks_mono j l _ hstep

/-! ### Decode session (`FECDecoder`, `fec.cpp`)

The wirehair decoding engine is opaque: it is threaded through the
definitions as a state of arbitrary type `σ` together with an oracle
`whRead : σ → ℕ → List ℕ → σ × Bool` standing for
`wh256_decoder_read(state, chunk_id, chunk)`; the returned Bool is true
exactly when the call returns 0, i.e. when the engine reports the data
reconstructable.  Chunk payloads are byte lists. -/

structure FECDecoder (σ : Type) where
  chunk_count : ℕ
  chunks_recvd : ℕ
  chunks_sent : ℕ
  decodeComplete : Bool
  chunk_recvd_flags : List Bool
  tmp_chunk : List ℕ
  state : σ

/-- `FECDecoder::FECDecoder(data_size, chunks_provided, prng_seed)`
(`fec.cpp` lines 13-21): `chunk_count = DIV_CEIL(data_size,
FEC_CHUNK_SIZE)`, no chunk received yet, a cleared received-flag vector
of size `chunks_provided`; the wirehair state starts as the opaque
initial state `s0` (`wh256_decoder_init`). -/
def FECDecoder.init {σ : Type} (data_size chunks_provided : ℕ) (s0 : σ) : FECDecoder σ :=
  { chunk_count := DIV_CEIL data_size FEC_CHUNK_SIZE
    chunks_recvd := 0
    chunks_sent := chunks_provided
    decodeComplete := false
    chunk_recvd_flags := List.replicate chunks_provided false
    tmp_chunk := []
    state := s0 }

/-- `FECDecoder::ProvideChunk` (`fec.cpp` lines 40-58).  The C++
precondition is `assert(chunk_id < chunks_sent)`. -/
def ProvideChunk {σ : Type} (whRead : σ → ℕ → List ℕ → σ × Bool)
    (d : FECDecoder σ) (chunk : List ℕ) (chunk_id : ℕ) : FECDecoder σ × Bool :=
  if d.decodeComplete then (d, true)
  else if getLD false d.chunk_recvd_flags chunk_id then (d, true)
  else if d.chunk_count < 2 then
    ({ d with chunk_recvd_flags := d.chunk_recvd_flags.set chunk_id true
              chunks_recvd := d.chunks_recvd + 1
              tmp_chunk := chunk.take FEC_CHUNK_SIZE
              decodeComplete := true }, true)
  else
    ({ d with chunk_recvd_flags := d.chunk_recvd_flags.set chunk_id true
              chunks_recvd := d.chunks_recvd + 1
              state := (whRead d.state chunk_id chunk).1
              decodeComplete := (whRead d.state chunk_id chunk).2 }, true)

/-- `FECDecoder::HasChunk` (`fec.cpp` lines 60-64). -/
def HasChunk {σ : Type} (d : FECDecoder σ) (chunk_id : ℕ) : Bool :=
  d.decodeComplete || getLD false d.chunk_recvd_flags chunk_id

/-- `FECDecoder::DecodeReady` (`fec.cpp` lines 66-68). -/
def DecodeReady {σ : Type} (d : FECDecoder σ) : Bool :=
  d.decodeComplete

/-- `FECDecoder::GetDataPtr` (`fec.cpp` lines 70-76): for
`chunk_count >= 2`, reconstruct the requested data chunk into
`tmp_chunk` through the opaque `wh256_decoder_reconstruct_block` oracle
`whRec` and return it; otherwise return `tmp_chunk` as stored by the
single `ProvideChunk`.  C++ preconditions: `DecodeReady()` and
`chunk_id < chunk_count`. -/
def GetDataPtr {σ : Type} (whRec : σ → ℕ → σ × List ℕ)
    (d : FECDecoder σ) (chunk_id : ℕ) : FECDecoder σ × List ℕ :=
  if 2 ≤ d.chunk_count then
    ({ d with state := (whRec d.state chunk_id).1
              tmp_chunk := (whRec d.state chunk_id).2 }, (whRec d.state chunk_id).2)
  else (d, d.tmp_chunk)

/-- `FECDecoder::GetChunksRcvd` (`fec.h` line 148). -/
def GetChunksRcvd {σ : Type} (d : FECDecoder σ) : ℕ :=
  d.chunks_recvd

/-- A sequence of `ProvideChunk` calls, keeping the session state. -/
def runProvides {σ : Type} (whRead : σ → ℕ → List ℕ → σ × Bool)
    (d : FECDecoder σ) (l : List (List ℕ × ℕ)) : FECDecoder σ :=
  l.foldl (fun a p => (ProvideChunk whRead a p.1 p.2).1) d

/-! ### Encode session (`FECEncoder`, `fec.cpp`)

The wirehair encoder is again opaque: the oracle
`whWrite : σ → ℕ → σ × Option (List ℕ)` stands for
`wh256_encoder_write(state, chunk_id, dest, &chunk_bytes)`, returning
`none` on failure and `some payload` (of at most `FEC_CHUNK_SIZE`
bytes) on success.  The caller-owned `fec_chunks` output is the flat
byte vector of `fec.cpp`. -/

structure FECEncoder (σ : Type) where
  data : List ℕ
  fec_chunks : List ℕ
  state : σ

/-- `memcpy` of a payload into a chunk followed by the `memset` of the
remainder to 0 (`fec.cpp` lines 101-102 and 111-112): the payload
zero-padded to exactly `FEC_CHUNK_SIZE` bytes. -/
def padChunk (l : List ℕ) : List ℕ :=
  (l ++ List.replicate FEC_CHUNK_SIZE 0).take FEC_CHUNK_SIZE

/-- Overwrite the `FEC_CHUNK_SIZE`-byte slot `i` of the flat output
vector with `c` (which must be `FEC_CHUNK_SIZE` bytes long). -/
def writeSlot (buf : List ℕ) (i : ℕ) (c : List ℕ) : List ℕ :=
  buf.take (i * FEC_CHUNK_SIZE) ++ c ++ buf.drop (i * FEC_CHUNK_SIZE + FEC_CHUNK_SIZE)

/-- Read back the `FEC_CHUNK_SIZE`-byte slot `i` of the flat output
vector. -/
def readSlot (buf : List ℕ) (i : ℕ) : List ℕ :=
  (buf.drop (i * FEC_CHUNK_SIZE)).take FEC_CHUNK_SIZE

/-- The chunk identifier `fec.cpp` line 106 passes to the codec for
output slot `fec_chunk_id`:
`chunk_id = fec_chunk_id + DIV_CEIL(data->size(), FEC_CHUNK_SIZE)`. -/
def srcChunkId {σ : Type} (e : FECEncoder σ) (fec_chunk_id : ℕ) : ℕ :=
  fec_chunk_id + DIV_CEIL e.data.length FEC_CHUNK_SIZE

/-- `FECEncoder::BuildChunk` (`fec.cpp` lines 97-115).  C++
precondition: `fec_chunk_id < fec_chunks->size() / FEC_CHUNK_SIZE`. -/
def BuildChunk {σ : Type} (whWrite : σ → ℕ → σ × Option (List ℕ))
    (e : FECEncoder σ) (fec_chunk_id : ℕ) : FECEncoder σ × Bool :=
  if DIV_CEIL e.data.length FEC_CHUNK_SIZE < 2 then
    ({ e with fec_chunks := writeSlot e.fec_chunks fec_chunk_id (padChunk e.data) }, true)
  else
    match (whWrite e.state (srcChunkId e fec_chunk_id)).2 with
    | none => ({ e with state := (whWrite e.state (srcChunkId e fec_chunk_id)).1 }, false)
    | some payload =>
        ({ e with state := (whWrite e.state (srcChunkId e fec_chunk_id)).1
                  fec_chunks := writeSlot e.fec_chunks fec_chunk_id (padChunk payload) }, true)

/-- The loop body of `BuildFECChunks` (`fec.cpp` lines 123-125): builds
the given slot indices in order, stopping with `false` at the first
failing `BuildChunk`. -/
def buildSlots {σ : Type} (whWrite : σ → ℕ → σ × Option (List ℕ)) :
    FECEncoder σ → List ℕ → FECEncoder σ × Bool
  | e, [] => (e, true)
  | e, i :: rest =>
      match BuildChunk whWrite e i with
      | (e1, false) => (e1, false)
      | (e1, true) => buildSlots whWrite e1 rest

/-- The spec's words for the batch helper: "returns true only if
`BuildChunk` succeeds for every slot index" — sequential success of
every `BuildChunk` along the run, with no early exit. -/
def allSlotsBuildOk {σ : Type} (whWrite : σ → ℕ → σ × Option (List ℕ)) :
    FECEncoder σ → List ℕ → Bool
  | _, [] => true
  | e, i :: rest =>
      (BuildChunk whWrite e i).2 && allSlotsBuildOk whWrite (BuildChunk whWrite e i).1 rest

/-- `BuildFECChunks` (`fec.cpp` lines 121-127): construct an
object-seeded encode session and drive `BuildChunk` over every output
slot `0 .. fec_chunks.size()/FEC_CHUNK_SIZE - 1`. -/
def BuildFECChunks {σ : Type} (whWrite : σ → ℕ → σ × Option (List ℕ))
    (data fec_chunks : List ℕ) (s0 : σ) : FECEncoder σ × Bool :=
  buildSlots whWrite ⟨data, fec_chunks, s0⟩
    (List.range (fec_chunks.length / FEC_CHUNK_SIZE))

/-! ### The size-hybrid encoder declared by `fec.h`

`fec.h` declares `FECEncoder::BuildChunk(size_t vector_idx, bool
overwrite=false)` over `fec_chunks = (chunk array, id vector)` output
slots, with a cm256 bounded mode, a `FastRandomContext rand`, and the
promise (lines 89-95) that the generated id is offset by the data chunk
count; the matching implementation is not among the sources at hand and
is modelled from the spec below.  The randomness source is an explicit
stream `rng : ℕ → ℕ`, and the bounded-mode retry loop carries explicit
fuel. -/

/-- Modelled from the spec: the bounded-mode random repair-id choice —
"randomly chosen (avoiding collision with previously assigned
identifiers and the sentinel)", offset by the data chunk count as
promised by `fec.h` lines 89-95.  Draws `fuel` candidates from the
random stream and returns the first admissible one. -/
def pickFreeId (rng : ℕ → ℕ) (used : List ℕ) (data_chunks : ℕ) : ℕ → Option ℕ
  | 0 => none
  | fuel + 1 =>
      let cand := data_chunks + rng fuel
      if cand ∉ used ∧ cand ≠ 0 then some cand else pickFreeId rng used data_chunks fuel

/-- The encode session in the shape declared by `fec.h`: per-slot
payloads (`fec_chunks->first`) and per-slot identifiers
(`fec_chunks->second`; `fec.h` line 81 requires them to start at the
sentinel 0, meaning unassigned). -/
structure FECEncoderH (σ : Type) where
  data : List ℕ
  chunks : List (List ℕ)
  chunk_ids : List ℕ
  state : σ

/-- Modelled from the spec: the identifier the size-hybrid `BuildChunk`
assigns to output slot `vector_idx` — "sequential, offset by
`data_chunk_count`, in Rateless mode; randomly chosen (avoiding
collision with previously assigned identifiers and the sentinel) in
Bounded mode". -/
def hybridChunkId {σ : Type} (rng : ℕ → ℕ) (fuel : ℕ) (e : FECEncoderH σ)
    (vector_idx : ℕ) : Option ℕ :=
  if DIV_CEIL e.data.length FEC_CHUNK_SIZE ≤ CM256_MAX_CHUNKS then
    pickFreeId rng e.chunk_ids (DIV_CEIL e.data.length FEC_CHUNK_SIZE) fuel
  else some (DIV_CEIL e.data.length FEC_CHUNK_SIZE + vector_idx)

/-- Modelled from the spec: `FECEncoder::BuildChunk(vector_idx,
overwrite)` of the size-hybrid design, whose implementation is absent
from the sources at hand (`fec.h` declares it; §4.3 of the spec
describes it).  If the slot already has an assigned (non-sentinel)
identifier and `overwrite` is false, this is a no-op success.
Otherwise the identifier is sequential (`data_chunks + vector_idx`) in
Rateless mode (`data_chunks > CM256_MAX_CHUNKS`), randomly chosen
avoiding previously assigned identifiers and the sentinel in Bounded
mode, and the payload is synthesized by the codec primitive for that
identifier and zero-padded to `FEC_CHUNK_SIZE`.  In Trivial mode
(`data_chunks < 2`) the payload is the zero-padded object itself and
the identifier stays the single data-chunk id 0. -/
def BuildChunkH {σ : Type} (whWrite : σ → ℕ → σ × Option (List ℕ))
    (rng : ℕ → ℕ) (fuel : ℕ) (e : FECEncoderH σ) (vector_idx : ℕ)
    (overwrite : Bool) : FECEncoderH σ × Bool :=
  if vector_idx < e.chunk_ids.length then
    if getLD 0 e.chunk_ids vector_idx ≠ 0 ∧ overwrite = false then (e, true)
    else if DIV_CEIL e.data.length FEC_CHUNK_SIZE < 2 then
      ({ e with chunks := e.chunks.set vector_idx (padChunk e.data)
                chunk_ids := e.chunk_ids.set vector_idx 0 }, true)
    else
      match hybridChunkId rng fuel e vector_idx with
      | none => (e, false)
      | some chunk_id =>
          match (whWrite e.state chunk_id).2 with
          | none => ({ e with state := (whWrite e.state chunk_id).1 }, false)
          | some payload =>
              ({ e with state := (whWrite e.state chunk_id).1
                        chunks := e.chunks.set vector_idx (padChunk payload)
                        chunk_ids := e.chunk_ids.set vector_idx chunk_id }, true)
  else (e, false)

/-! ### The bounded (cm256) decode mode declared by `fec.h`

`fec.h` equips `FECDecoder` with a `BlockChunkRecvdTracker`, a
`cm256_map`, and a `cm256_decoded` flag for objects of at most
`CM256_MAX_CHUNKS` data chunks, but the matching implementation is not
among the sources at hand; the ingestion step is modelled from §4.2 of
the spec. -/

structure BoundedFECDecoder where
  chunk_count : ℕ
  chunks_recvd : ℕ
  decodeComplete : Bool
  chunk_tracker : BlockChunkRecvdTracker

/-- A fresh bounded-mode decode session for an object of
`data_chunks` data chunks. -/
def BoundedFECDecoder.init (data_chunks : ℕ) : BoundedFECDecoder :=
  { chunk_count := data_chunks
    chunks_recvd := 0
    decodeComplete := false
    chunk_tracker := BlockChunkRecvdTracker.init data_chunks }

/-- Modelled from the spec: bounded (cm256) mode chunk ingestion, whose
implementation is absent from the sources at hand (`fec.h` declares its
state; §4.2 of the spec describes it): a no-op success when already
`Complete` or when the tracker reports the id as seen; otherwise the id
is recorded, the received counter advances, and the session becomes
`Complete` exactly when `data_chunk_count` distinct chunks are
present. -/
def provideChunkBounded (d : BoundedFECDecoder) (chunk_id : ℕ) :
    BoundedFECDecoder × Bool :=
  if d.decodeComplete then (d, true)
  else if (CheckPresentAndMarkRecvd d.chunk_tracker chunk_id).2 then
    ({ d with chunk_tracker := (CheckPresentAndMarkRecvd d.chunk_tracker chunk_id).1 }, true)
  else
    ({ d with chunk_tracker := (CheckPresentAndMarkRecvd d.chunk_tracker chunk_id).1
              chunks_recvd := d.chunks_recvd + 1
              decodeComplete := d.chunks_recvd + 1 == d.chunk_count }, true)

/-- A sequence of bounded-mode `ProvideChunk` calls. -/
def runBounded (d : BoundedFECDecoder) (l : List ℕ) : BoundedFECDecoder :=
  l.foldl (fun a id => (provideChunkBounded a id).1) d

/-! ### Lemmas about `FECDecoder.ProvideChunk` -/

theorem provideChunk_of_complete {σ : Type} (whRead : σ → ℕ → List ℕ → σ × Bool)
    (d : FECDecoder σ) (chunk : List ℕ) (chunk_id : ℕ)
    (h : d.decodeComplete = true) :
    ProvideChunk whRead d chunk chunk_id = (d, true) := by
  unfold ProvideChunk
  rw [if_pos h]

theorem provideChunk_of_flag {σ : Type} (whRead : σ → ℕ → List ℕ → σ × Bool)
    (d : FECDecoder σ) (chunk : List ℕ) (chunk_id : ℕ)
    (h : getLD false d.chunk_recvd_flags chunk_id = true) :
    ProvideChunk whRead d chunk chunk_id = (d, true) := by
  unfold ProvideChunk
  by_cases h1 : d.decodeComplete = true
  · rw [if_pos h1]
  · rw [if_neg h1, if_pos h]

theorem provideChunk_guard_after {σ : Type} (whRead : σ → ℕ → List ℕ → σ × Bool)
    (d : FECDecoder σ) (chunk : List ℕ) (chunk_id : ℕ)
    (hid : chunk_id < d.chunk_recvd_flags.length) :
    (ProvideChunk whRead d chunk chunk_id).1.decodeComplete = true
      ∨ getLD false (ProvideChunk whRead d chunk chunk_id).1.chunk_recvd_flags chunk_id = true := by
  unfold ProvideChunk
  by_cases h1 : d.decodeComplete = true
  · rw [if_pos h1]; exact Or.inl h1
  · rw [if_neg h1]
    by_cases h2 : getLD false d.chunk_recvd_flags chunk_id = true
    · rw [if_pos h2]; exact Or.inr h2
    · rw [if_neg h2]
      by_cases h3 : d.chunk_count < 2
      · rw [if_pos h3]; exact Or.inl rfl
      · rw [if_neg h3]
        exact Or.inr (getLD_set_self true false _ _ hid)

theorem runProvides_frozen {σ : Type} (whRead : σ → ℕ → List ℕ → σ × Bool) :
    ∀ (l : List (List ℕ × ℕ)) (d : FECDecoder σ), d.decodeComplete = true →
      runProvides whRead d l = d
  | [], _, _ => rfl
  | p :: l, d, h => by
      show runProvides whRead (ProvideChunk whRead d p.1 p.2).1 l = d
      rw [provideChunk_of_complete whRead d p.1 p.2 h]
      exact runProvides_frozen whRead l d h

theorem hasChunk_mono_step {σ : Type} (whRead : σ → ℕ → List ℕ → σ × Bool)
    (d : FECDecoder σ) (chunk : List ℕ) (chunk_id j : ℕ)
    (h : HasChunk d chunk_id = true) :
    HasChunk (ProvideChunk whRead d chunk j).1 chunk_id = true := by
  unfold HasChunk at h ⊢
  unfold ProvideChunk
  by_cases h1 : d.decodeComplete = true
  · rw [if_pos h1]; exact h
  · rw [if_neg h1]
    have hflag : getLD false d.chunk_recvd_flags chunk_id = true := by
      rcases Bool.or_eq_true_iff.mp h with h' | h'
      · exact absurd h' h1
      · exact h'
    by_cases h2 : getLD false d.chunk_recvd_flags j = true
    · rw [if_pos h2]; exact h
    · rw [if_neg h2]
      by_cases h3 : d.chunk_count < 2
      · rw [if_pos h3]; rfl
      · rw [if_neg h3]
        exact Bool.or_eq_true_iff.mpr
          (Or.inr (getLD_set_keep true false d.chunk_recvd_flags chunk_id j hflag))

theorem hasChunk_run_mono {σ : Type} (whRead : σ → ℕ → List ℕ → σ × Bool) (chunk_id : ℕ) :
    ∀ (l : List (List ℕ × ℕ)) (d : FECDecoder σ), HasChunk d chunk_id = true →
      HasChunk (runProvides whRead d l) chunk_id = true
  | [], _, h => h
  | p :: l, d, h =>
      hasChunk_run_mono whRead chunk_id l (ProvideChunk whRead d p.1 p.2).1
        (hasChunk_mono_step whRead d p.1 chunk_id p.2 h)

/-! ### Objects used by the closed witness theorems -/

/-- Witness wirehair-read oracle: the engine never reports sufficiency. -/
def whReadNever : Unit → ℕ → List ℕ → Unit × Bool := fun s _ _ => (s, false)

/-- Witness reconstruction oracle. -/
def whRecNil : Unit → ℕ → Unit × List ℕ := fun s _ => (s, [])

/-- Witness decoder: 5500-byte object (5 data chunks), 9 chunk ids. -/
def dLarge : FECDecoder Unit := FECDecoder.init 5500 9 ()

/-- Witness decoder: 700-byte object (1 data chunk), 1 chunk id. -/
def dTrivial : FECDecoder Unit := FECDecoder.init 700 1 ()

/-- A concrete full-size chunk payload. -/
def chunkA : List ℕ := List.replicate 1152 7

/-! ### Claims -/

/-- C1.  Idempotence of ingestion: calling `ProvideChunk` a second time
with the same id leaves the whole session state — hence
`ChunksReceived()`, `DecodeReady()`, and every reconstructable data
chunk — identical to the state after the first call, and still returns
success.  The hypotheses are the `assert(chunk_id < chunks_sent)`
precondition plus the constructor invariant that the flag vector has
size `chunks_sent`. -/
theorem provideChunk_idempotent {σ : Type} (whRead : σ → ℕ → List ℕ → σ × Bool)
    (whRec : σ → ℕ → σ × List ℕ) (d : FECDecoder σ) (chunk : List ℕ) (chunk_id : ℕ)
    (hwf : d.chunk_recvd_flags.length = d.chunks_sent)
    (hid : chunk_id < d.chunks_sent) :
    ProvideChunk whRead (ProvideChunk whRead d chunk chunk_id).1 chunk chunk_id
        = ((ProvideChunk whRead d chunk chunk_id).1, true)
    ∧ GetChunksRcvd (ProvideChunk whRead (ProvideChunk whRead d chunk chunk_id).1 chunk chunk_id).1
        = GetChunksRcvd (ProvideChunk whRead d chunk chunk_id).1
    ∧ DecodeReady (ProvideChunk whRead (ProvideChunk whRead d chunk chunk_id).1 chunk chunk_id).1
        = DecodeReady (ProvideChunk whRead d chunk chunk_id).1
    ∧ ∀ j, (GetDataPtr whRec (ProvideChunk whRead (ProvideChunk whRead d chunk chunk_id).1 chunk chunk_id).1 j).2
        = (GetDataPtr whRec (ProvideChunk whRead d chunk chunk_id).1 j).2 := by
  have hid' : chunk_id < d.chunk_recvd_flags.length := by rw [hwf]; exact hid
  have key : ProvideChunk whRead (ProvideChunk whRead d chunk chunk_id).1 chunk chunk_id
      = ((ProvideChunk whRead d chunk chunk_id).1, true) := by
    rcases provideChunk_guard_after whRead d chunk chunk_id hid' with h | h
    · exact provideChunk_of_complete whRead _ chunk chunk_id h
    · exact provideChunk_of_flag whRead _ chunk chunk_id h
  refine ⟨key, ?_, ?_, fun j => ?_⟩ <;> rw [key]

/-- C1 witness: the idempotence theorem applied to the concrete
decoder `dLarge`, chunk `chunkA`, id 4. -/
theorem provideChunk_idempotent_witness :
    (dLarge.chunk_recvd_flags.length = dLarge.chunks_sent ∧ 4 < dLarge.chunks_sent)
    ∧ ProvideChunk whReadNever (ProvideChunk whReadNever dLarge chunkA 4).1 chunkA 4
        = ((ProvideChunk whReadNever dLarge chunkA 4).1, true) :=
  ⟨⟨by simp [dLarge, FECDecoder.init], by simp [dLarge, FECDecoder.init]⟩,
    (provideChunk_idempotent whReadNever whRecNil dLarge chunkA 4
      (by simp [dLarge, FECDecoder.init]) (by simp [dLarge, FECDecoder.init])).1⟩

/-- C9.  `ProvideChunk` is total success: it returns true on every
call, whatever the session state, the id, the payload, or the codec
oracle's verdict — the return value never distinguishes any outcome. -/
theorem provideChunk_always_returns_success {σ : Type}
    (whRead : σ → ℕ → List ℕ → σ × Bool) (d : FECDecoder σ)
    (chunk : List ℕ) (chunk_id : ℕ) :
    (ProvideChunk whRead d chunk chunk_id).2 = true := by
  unfold ProvideChunk
  by_cases h1 : d.decodeComplete = true
  · rw [if_pos h1]
  · rw [if_neg h1]
    by_cases h2 : getLD false d.chunk_recvd_flags chunk_id = true
    · rw [if_pos h2]
    · rw [if_neg h2]
      by_cases h3 : d.chunk_count < 2
      · rw [if_pos h3]
      · rw [if_neg h3]

/-- C10.  Completion is frozen: once `DecodeReady()` holds, every
subsequent `ProvideChunk` — even with a fresh valid id — returns
success and leaves the whole session state (received counter, flags,
codec state) unchanged, and `DecodeReady()` never becomes false over
any further call sequence. -/
theorem decode_completion_frozen {σ : Type} (whRead : σ → ℕ → List ℕ → σ × Bool)
    (d : FECDecoder σ) (chunk : List ℕ) (chunk_id : ℕ) (l : List (List ℕ × ℕ))
    (h : DecodeReady d = true) :
    ProvideChunk whRead d chunk chunk_id = (d, true)
    ∧ runProvides whRead d l = d
    ∧ DecodeReady (runProvides whRead d l) = true := by
  have h' : d.decodeComplete = true := h
  refine ⟨provideChunk_of_complete whRead d chunk chunk_id h', ?_, ?_⟩
  · exact runProvides_frozen whRead l d h'
  · rw [runProvides_frozen whRead l d h']; exact h

/-- C10 witness: the frozen-completion theorem applied to `dLarge`
marked complete, with one further provide of a fresh id. -/
theorem decode_completion_frozen_witness :
    DecodeReady { dLarge with decodeComplete := true } = true
    ∧ ProvideChunk whReadNever { dLarge with decodeComplete := true } chunkA 7
        = ({ dLarge with decodeComplete := true }, true) :=
  ⟨rfl, (decode_completion_frozen whReadNever { dLarge with decodeComplete := true }
    chunkA 7 [(chunkA, 7)] rfl).1⟩

/-- C6.  `HasChunk` semantics and monotonicity: `HasChunk(id)` holds
exactly when the session is complete or the received flag for `id` is
set; it holds immediately after a (necessarily successful)
`ProvideChunk(id)`, stays true over any further call sequence, and
holds for every id once `DecodeReady()`. -/
theorem hasChunk_semantics {σ : Type} (whRead : σ → ℕ → List ℕ → σ × Bool)
    (d : FECDecoder σ) (chunk : List ℕ) (chunk_id : ℕ)
    (hid : chunk_id < d.chunk_recvd_flags.length) :
    (HasChunk d chunk_id = true
      ↔ (DecodeReady d = true ∨ getLD false d.chunk_recvd_flags chunk_id = true))
    ∧ HasChunk (ProvideChunk whRead d chunk chunk_id).1 chunk_id = true
    ∧ (HasChunk d chunk_id = true →
        ∀ l, HasChunk (runProvides whRead d l) chunk_id = true)
    ∧ (DecodeReady d = true → ∀ j, HasChunk d j = true) := by
  refine ⟨Bool.or_eq_true_iff, ?_, ?_, ?_⟩
  · rcases provideChunk_guard_after whRead d chunk chunk_id hid with h | h
    · exact Bool.or_eq_true_iff.mpr (Or.inl h)
    · exact Bool.or_eq_true_iff.mpr (Or.inr h)
  · exact fun h l => hasChunk_run_mono whRead chunk_id l d h
  · intro h j
    exact Bool.or_eq_true_iff.mpr (Or.inl h)

/-- C6 witness: `HasChunk 4` holds right after `ProvideChunk` with id 4
on the concrete decoder `dLarge`. -/
theorem hasChunk_semantics_witness :
    4 < dLarge.chunk_recvd_flags.length
    ∧ HasChunk (ProvideChunk whReadNever dLarge chunkA 4).1 4 = true :=
  ⟨by simp [dLarge, FECDecoder.init],
    (hasChunk_semantics whReadNever dLarge chunkA 4
      (by simp [dLarge, FECDecoder.init])).2.1⟩

/-- C3.  Trivial-mode completion: for an object of fewer than 2 data
chunks, one `ProvideChunk` with any valid chunk id makes
`DecodeReady()` true and `GetDataPtr(0)` then returns exactly the
provided `FEC_CHUNK_SIZE`-byte chunk (which, on the encode side, is the
original object zero-padded to `FEC_CHUNK_SIZE`).  `0 < data_size`
mirrors the `GetDataPtr` precondition `chunk_id < chunk_count` at
index 0. -/
theorem trivial_mode_completion {σ : Type} (whRead : σ → ℕ → List ℕ → σ × Bool)
    (whRec : σ → ℕ → σ × List ℕ) (data_size chunks_provided : ℕ) (s0 : σ)
    (chunk : List ℕ) (chunk_id : ℕ)
    (hsz : DIV_CEIL data_size FEC_CHUNK_SIZE < 2) (h0 : 0 < data_size)
    (hid : chunk_id < chunks_provided) (hc : chunk.length = FEC_CHUNK_SIZE) :
    DecodeReady (ProvideChunk whRead (FECDecoder.init data_size chunks_provided s0)
        chunk chunk_id).1 = true
    ∧ (GetDataPtr whRec (ProvideChunk whRead (FECDecoder.init data_size chunks_provided s0)
        chunk chunk_id).1 0).2 = chunk := by
  have hflag : getLD false (FECDecoder.init (σ := σ) data_size chunks_provided s0).chunk_recvd_flags
      chunk_id = false := getLD_replicate_false chunks_provided chunk_id
  have hstep : ProvideChunk whRead (FECDecoder.init data_size chunks_provided s0) chunk chunk_id
      = ({ FECDecoder.init data_size chunks_provided s0 with
            chunk_recvd_flags := (List.replicate chunks_provided false).set chunk_id true
            chunks_recvd := 1
            tmp_chunk := chunk.take FEC_CHUNK_SIZE
            decodeComplete := true }, true) := by
    unfold ProvideChunk
    rw [if_neg (by exact fun h => Bool.noConfusion h), if_neg (by rw [hflag]; exact fun h => Bool.noConfusion h),
      if_pos (by exact hsz)]
    rfl
  rw [hstep]
  refine ⟨rfl, ?_⟩
  unfold GetDataPtr
  rw [if_neg (by show ¬ 2 ≤ DIV_CEIL data_size FEC_CHUNK_SIZE; omega)]
  show chunk.take FEC_CHUNK_SIZE = chunk
  rw [← hc, List.take_length]

/-- C3 witness: the trivial-mode theorem at a 700-byte object, one
provided id 0, and the zero-padded-object chunk
`700 bytes of 3 ++ 452 zero bytes`. -/
theorem trivial_mode_completion_witness :
    (DIV_CEIL 700 FEC_CHUNK_SIZE < 2 ∧ 0 < 700 ∧ 0 < 1
      ∧ (List.replicate 700 3 ++ List.replicate 452 0).length = FEC_CHUNK_SIZE)
    ∧ (GetDataPtr whRecNil (ProvideChunk whReadNever (FECDecoder.init 700 1 ())
        (List.replicate 700 3 ++ List.replicate 452 0) 0).1 0).2
      = List.replicate 700 3 ++ List.replicate 452 0 :=
  ⟨⟨by decide, by decide, by decide,
      by rw [List.length_append, List.length_replicate, List.length_replicate]; rfl⟩,
    (trivial_mode_completion whReadNever whRecNil 700 1 ()
      (List.replicate 700 3 ++ List.replicate 452 0) 0
      (by decide) (by decide) (by decide)
      (by rw [List.length_append, List.length_replicate, List.length_replicate]; rfl)).2⟩

/-- C5.  Tracker mark-and-check contract: for an id in the dense range
(`id < data_chunk_count`) or the sparse range (`id ≥ data_chunk_count`,
`id ≠ 0`) that the tracker has not yet recorded, the first
`CheckPresentAndMarkRecvd(id)` returns false and every subsequent call
with the same id — after any interleaving of other marks — returns
true. -/
theorem tracker_mark_and_check (t : BlockChunkRecvdTracker) (chunk_id : ℕ)
    (hdom : chunk_id < t.data_chunk_recvd_flags.length
      ∨ (t.data_chunk_recvd_flags.length ≤ chunk_id ∧ chunk_id ≠ 0))
    (hnew : CheckPresent t chunk_id = false) :
    (CheckPresentAndMarkRecvd t chunk_id).2 = false
    ∧ ∀ l, (CheckPresentAndMarkRecvd
        (runMarks (CheckPresentAndMarkRecvd t chunk_id).1 l) chunk_id).2 = true := by
  refine ⟨by rw [mark_snd_eq_checkPresent]; exact hnew, fun l => ?_⟩
  rw [mark_snd_eq_checkPresent]
  apply checkPresent_runMarks_mono
  rw [checkPresent_mark]
  simp

/-- C5 witness: a fresh 3-data-chunk tracker, dense id 1 marked once,
then re-queried after marking ids 2 and 50. -/
theorem tracker_mark_and_check_witness :
    (1 < (BlockChunkRecvdTracker.init 3).data_chunk_recvd_flags.length
      ∧ CheckPresent (BlockChunkRecvdTracker.init 3) 1 = false)
    ∧ (CheckPresentAndMarkRecvd (BlockChunkRecvdTracker.init 3) 1).2 = false
    ∧ (CheckPresentAndMarkRecvd
        (runMarks (CheckPresentAndMarkRecvd (BlockChunkRecvdTracker.init 3) 1).1 [2, 50]) 1).2
      = true :=
  ⟨⟨by decide, by decide⟩,
    (tracker_mark_and_check (BlockChunkRecvdTracker.init 3) 1 (Or.inl (by decide)) (by decide)).1,
    (tracker_mark_and_check (BlockChunkRecvdTracker.init 3) 1 (Or.inl (by decide)) (by decide)).2 [2, 50]⟩

/-- C7.  Overwrite guard of the size-hybrid `BuildChunk`: on a slot
that already carries an assigned (non-sentinel) identifier, a call with
`overwrite = false` is a no-op returning success — the whole session,
hence the slot's payload and identifier and all other slots, is
unchanged. -/
theorem buildChunkH_overwrite_guard {σ : Type} (whWrite : σ → ℕ → σ × Option (List ℕ))
    (rng : ℕ → ℕ) (fuel : ℕ) (e : FECEncoderH σ) (vector_idx : ℕ)
    (hlen : vector_idx < e.chunk_ids.length)
    (hset : getLD 0 e.chunk_ids vector_idx ≠ 0) :
    BuildChunkH whWrite rng fuel e vector_idx false = (e, true) := by
  unfold BuildChunkH
  rw [if_pos hlen, if_pos ⟨hset, rfl⟩]

/-- Witness wirehair-write oracle: always produces a 1-byte payload. -/
def whWriteSome : Unit → ℕ → Unit × Option (List ℕ) := fun s _ => (s, some [9])

/-- Witness wirehair-write oracle: always fails. -/
def whWriteFail : Unit → ℕ → Unit × Option (List ℕ) := fun s _ => (s, none)

/-- Witness random stream: constantly 5. -/
def rngFive : ℕ → ℕ := fun _ => 5

/-- Witness hybrid encode session (2 data chunks), slot 0 already
assigned id 7. -/
def eH7 : FECEncoderH Unit := ⟨List.replicate 1153 1, [[], []], [7, 0], ()⟩

/-- Witness hybrid encode session (2 data chunks), both slots
unassigned. -/
def eH0 : FECEncoderH Unit := ⟨List.replicate 1153 1, [[], []], [0, 0], ()⟩

/-- C7 witness: the overwrite-guard theorem on the concrete session
`eH7` whose slot 0 already has id 7. -/
theorem buildChunkH_overwrite_guard_witness :
    (0 < eH7.chunk_ids.length ∧ getLD 0 eH7.chunk_ids 0 ≠ 0)
    ∧ BuildChunkH whWriteSome rngFive 3 eH7 0 false = (eH7, true) :=
  ⟨⟨by decide, by decide⟩,
    buildChunkH_overwrite_guard whWriteSome rngFive 3 eH7 0 (by decide) (by decide)⟩

/-! ### Lemmas for the batch helper -/

theorem buildSlots_eq_allOk {σ : Type} (whWrite : σ → ℕ → σ × Option (List ℕ)) :
    ∀ (l : List ℕ) (e : FECEncoder σ),
      (buildSlots whWrite e l).2 = allSlotsBuildOk whWrite e l
  | [], _ => rfl
  | i :: l, e => by
      unfold buildSlots allSlotsBuildOk
      rcases hb : BuildChunk whWrite e i with ⟨e1, ok⟩
      cases ok
      · simp
      · simpa using buildSlots_eq_allOk whWrite l e1

theorem buildSlots_early_exit {σ : Type} (whWrite : σ → ℕ → σ × Option (List ℕ))
    (e e1 : FECEncoder σ) (i : ℕ) (l : List ℕ)
    (hb : BuildChunk whWrite e i = (e1, false)) :
    buildSlots whWrite e (i :: l) = (e1, false) := by
  unfold buildSlots
  rw [hb]

/-- C8.  Batch helper all-or-fail: `BuildFECChunks` drives `BuildChunk`
over every output slot of the freshly constructed object-seeded encode
session, its result is true exactly when `BuildChunk` succeeds at every
slot along the run, and the loop aborts with false at the first failing
slot (building nothing further). -/
theorem buildFECChunks_all_or_fail {σ : Type} (whWrite : σ → ℕ → σ × Option (List ℕ))
    (data fec_chunks : List ℕ) (s0 : σ) (e e1 : FECEncoder σ) (i : ℕ) (l : List ℕ) :
    (BuildFECChunks whWrite data fec_chunks s0).2
        = allSlotsBuildOk whWrite ⟨data, fec_chunks, s0⟩
            (List.range (fec_chunks.length / FEC_CHUNK_SIZE))
    ∧ (buildSlots whWrite e l).2 = allSlotsBuildOk whWrite e l
    ∧ (BuildChunk whWrite e i = (e1, false) →
        buildSlots whWrite e (i :: l) = (e1, false)) :=
  ⟨buildSlots_eq_allOk whWrite _ _, buildSlots_eq_allOk whWrite l e,
    buildSlots_early_exit whWrite e e1 i l⟩

/-- Witness object-seeded encode session: a 1153-byte object and one
output slot. -/
def eSrc : FECEncoder Unit := ⟨List.replicate 1153 1, List.replicate 1152 0, ()⟩

/-- C8 witness: with an always-failing codec oracle, slot 0 fails and
the loop over `[0]` stops there with overall failure. -/
theorem buildFECChunks_all_or_fail_witness :
    BuildChunk whWriteFail eSrc 0 = (eSrc, false)
    ∧ buildSlots whWriteFail eSrc [0] = (eSrc, false) :=
  ⟨rfl,
    (buildFECChunks_all_or_fail whWriteFail eSrc.data eSrc.fec_chunks () eSrc eSrc 0 []).2.2 rfl⟩

/-! ### Lemmas for the repair-id assignment policy -/

theorem pickFreeId_spec (rng : ℕ → ℕ) (used : List ℕ) (data_chunks : ℕ) :
    ∀ (fuel chunk_id : ℕ), pickFreeId rng used data_chunks fuel = some chunk_id →
      data_chunks ≤ chunk_id ∧ chunk_id ∉ used ∧ chunk_id ≠ 0
  | 0, _, h => Option.noConfusion h
  | fuel + 1, chunk_id, h => by
      unfold pickFreeId at h
      by_cases hc : (data_chunks + rng fuel) ∉ used ∧ (data_chunks + rng fuel) ≠ 0
      · rw [if_pos hc] at h
        cases h
        exact ⟨Nat.le_add_right _ _, hc.1, hc.2⟩
      · rw [if_neg hc] at h
        exact pickFreeId_spec rng used data_chunks fuel chunk_id h

theorem hybridChunkId_spec {σ : Type} (rng : ℕ → ℕ) (fuel : ℕ) (e : FECEncoderH σ)
    (vector_idx chunk_id : ℕ)
    (h : hybridChunkId rng fuel e vector_idx = some chunk_id) :
    DIV_CEIL e.data.length FEC_CHUNK_SIZE ≤ chunk_id
    ∧ (CM256_MAX_CHUNKS < DIV_CEIL e.data.length FEC_CHUNK_SIZE →
        chunk_id = DIV_CEIL e.data.length FEC_CHUNK_SIZE + vector_idx)
    ∧ (DIV_CEIL e.data.length FEC_CHUNK_SIZE ≤ CM256_MAX_CHUNKS →
        chunk_id ∉ e.chunk_ids ∧ chunk_id ≠ 0) := by
  unfold hybridChunkId at h
  by_cases hm : DIV_CEIL e.data.length FEC_CHUNK_SIZE ≤ CM256_MAX_CHUNKS
  · rw [if_pos hm] at h
    obtain ⟨h1, h2, h3⟩ := pickFreeId_spec rng e.chunk_ids _ fuel chunk_id h
    exact ⟨h1, fun hlt => absurd hm (not_le.mpr hlt), fun _ => ⟨h2, h3⟩⟩
  · rw [if_neg hm] at h
    cases h
    exact ⟨Nat.le_add_right _ _, fun _ => rfl, fun hle => absurd hle hm⟩

/-- C4.  Repair-id assignment policy: whenever the size-hybrid
`BuildChunk` fills a slot (outside Trivial mode), the identifier it
assigns to that slot is a repair id (`≥ data_chunk_count`); in Rateless
mode (`data_chunk_count > CM256_MAX_CHUNKS`) it is
`data_chunk_count + slot index` — as the plain `fec.cpp` encoder also
uses verbatim (`srcChunkId`) — and in Bounded mode it avoids every
previously assigned identifier and the reserved sentinel 0. -/
theorem buildChunkH_repair_id_policy {σ : Type} (whWrite : σ → ℕ → σ × Option (List ℕ))
    (rng : ℕ → ℕ) (fuel : ℕ) (e : FECEncoderH σ) (vector_idx : ℕ) (overwrite : Bool)
    (e2 : FECEncoder σ) (i2 : ℕ)
    (hlen : vector_idx < e.chunk_ids.length)
    (hfill : getLD 0 e.chunk_ids vector_idx = 0 ∨ overwrite = true)
    (hdc : 2 ≤ DIV_CEIL e.data.length FEC_CHUNK_SIZE)
    (hsucc : (BuildChunkH whWrite rng fuel e vector_idx overwrite).2 = true) :
    DIV_CEIL e.data.length FEC_CHUNK_SIZE
        ≤ getLD 0 (BuildChunkH whWrite rng fuel e vector_idx overwrite).1.chunk_ids vector_idx
    ∧ (CM256_MAX_CHUNKS < DIV_CEIL e.data.length FEC_CHUNK_SIZE →
        getLD 0 (BuildChunkH whWrite rng fuel e vector_idx overwrite).1.chunk_ids vector_idx
          = DIV_CEIL e.data.length FEC_CHUNK_SIZE + vector_idx)
    ∧ (DIV_CEIL e.data.length FEC_CHUNK_SIZE ≤ CM256_MAX_CHUNKS →
        getLD 0 (BuildChunkH whWrite rng fuel e vector_idx overwrite).1.chunk_ids vector_idx
            ∉ e.chunk_ids
        ∧ getLD 0 (BuildChunkH whWrite rng fuel e vector_idx overwrite).1.chunk_ids vector_idx
            ≠ 0)
    ∧ srcChunkId e2 i2 = i2 + DIV_CEIL e2.data.length FEC_CHUNK_SIZE := by
  have hng : ¬(getLD 0 e.chunk_ids vector_idx ≠ 0 ∧ overwrite = false) := by
    rcases hfill with hfill | hfill
    · exact fun hc => hc.1 hfill
    · exact fun hc => by rw [hfill] at hc; exact Bool.noConfusion hc.2
  have hn2 : ¬ DIV_CEIL e.data.length FEC_CHUNK_SIZE < 2 := not_lt.mpr hdc
  unfold BuildChunkH at hsucc ⊢
  rw [if_pos hlen, if_neg hng, if_neg hn2] at hsucc ⊢
  cases hcid : hybridChunkId rng fuel e vector_idx with
  | none =>
      rw [hcid] at hsucc
      exact absurd hsucc (by simp)
  | some chunk_id =>
      rw [hcid] at hsucc
      dsimp only at hsucc ⊢
      obtain ⟨h1, h2, h3⟩ := hybridChunkId_spec rng fuel e vector_idx chunk_id hcid
      cases hw : (whWrite e.state chunk_id).2 with
      | none =>
          rw [hw] at hsucc
          exact absurd hsucc (by simp)
      | some payload =>
          dsimp only
          have hslot : getLD 0 (e.chunk_ids.set vector_idx chunk_id) vector_idx = chunk_id :=
            getLD_set_self chunk_id 0 e.chunk_ids vector_idx hlen
          exact ⟨by rw [hslot]; exact h1,
            fun hm => by rw [hslot]; exact h2 hm,
            fun hm => by rw [hslot]; exact h3 hm,
            rfl⟩

/-- C4 witness: the id-policy theorem on the concrete Bounded-mode
session `eH0` (2 data chunks): the id assigned to slot 0 is
`2 + rngFive 2 = 7`, a fresh non-sentinel repair id. -/
theorem buildChunkH_repair_id_policy_witness :
    (0 < eH0.chunk_ids.length
      ∧ getLD 0 eH0.chunk_ids 0 = 0
      ∧ 2 ≤ DIV_CEIL eH0.data.length FEC_CHUNK_SIZE
      ∧ (BuildChunkH whWriteSome rngFive 3 eH0 0 false).2 = true)
    ∧ DIV_CEIL eH0.data.length FEC_CHUNK_SIZE
        ≤ getLD 0 (BuildChunkH whWriteSome rngFive 3 eH0 0 false).1.chunk_ids 0
    ∧ (DIV_CEIL eH0.data.length FEC_CHUNK_SIZE ≤ CM256_MAX_CHUNKS →
        getLD 0 (BuildChunkH whWriteSome rngFive 3 eH0 0 false).1.chunk_ids 0 ∉ eH0.chunk_ids
        ∧ getLD 0 (BuildChunkH whWriteSome rngFive 3 eH0 0 false).1.chunk_ids 0 ≠ 0) :=
  ⟨⟨by decide, by decide, by decide, by decide⟩,
    (buildChunkH_repair_id_policy whWriteSome rngFive 3 eH0 0 false eSrc 0
      (by decide) (Or.inl (by decide)) (by decide) (by decide)).1,
    (buildChunkH_repair_id_policy whWriteSome rngFive 3 eH0 0 false eSrc 0
      (by decide) (Or.inl (by decide)) (by decide) (by decide)).2.2.1⟩

/-! ### Invariant for the bounded decode mode

The invariant ties a bounded session to the set `S` of distinct ids
provided so far: while `Active`, the tracker records exactly `S`, the
received counter equals `S.card`, and `S.card` is still below the
threshold; once `Complete`, at least `chunk_count` distinct ids were
provided. -/

def BInv (data_chunks : ℕ) (d : BoundedFECDecoder) (S : Finset ℕ) : Prop :=
  d.chunk_count = data_chunks
  ∧ (d.decodeComplete = true → data_chunks ≤ S.card)
  ∧ (d.decodeComplete = false →
      (∀ j, CheckPresent d.chunk_tracker j = true ↔ j ∈ S)
      ∧ d.chunks_recvd = S.card ∧ S.card < data_chunks)

theorem bInv_init (data_chunks : ℕ) (h0 : 0 < data_chunks) :
    BInv data_chunks (BoundedFECDecoder.init data_chunks) ∅ := by
  refine ⟨rfl, fun h => Bool.noConfusion h, fun _ => ⟨?_, rfl, by simpa using h0⟩⟩
  intro j
  constructor
  · intro hj
    exfalso
    unfold CheckPresent BoundedFECDecoder.init BlockChunkRecvdTracker.init at hj
    by_cases hjl : j < (List.replicate data_chunks false).length
    · rw [if_pos hjl, getLD_replicate_false] at hj
      exact Bool.noConfusion hj
    · rw [if_neg hjl] at hj
      simp at hj
  · intro hj
    exact absurd hj (Finset.not_mem_empty j)

theorem bInv_step (data_chunks : ℕ) (d : BoundedFECDecoder) (S : Finset ℕ) (x : ℕ)
    (h : BInv data_chunks d S) :
    BInv data_chunks (provideChunkBounded d x).1 (insert x S) := by
  obtain ⟨hcc, hC, hA⟩ := h
  cases hd : d.decodeComplete with
  | true =>
      have heq : provideChunkBounded d x = (d, true) := by
        unfold provideChunkBounded; rw [if_pos hd]
      rw [heq]
      exact ⟨hcc,
        fun _ => le_trans (hC hd) (Finset.card_le_card (Finset.subset_insert x S)),
        fun hf => absurd hd (by rw [hf]; exact Bool.noConfusion)⟩
  | false =>
      obtain ⟨hT, hR, hlt⟩ := hA hd
      have hd' : ¬ d.decodeComplete = true := by rw [hd]; exact Bool.noConfusion
      have hm2 : (CheckPresentAndMarkRecvd d.chunk_tracker x).2
          = CheckPresent d.chunk_tracker x := mark_snd_eq_checkPresent d.chunk_tracker x
      have htrack : ∀ j, CheckPresent (CheckPresentAndMarkRecvd d.chunk_tracker x).1 j = true
          ↔ j ∈ insert x S := by
        intro j
        rw [checkPresent_mark, Finset.mem_insert]
        constructor
        · intro hj
          rcases Bool.or_eq_true_iff.mp hj with hj | hj
          · exact Or.inl (of_decide_eq_true hj)
          · exact Or.inr ((hT j).mp hj)
        · intro hj
          rcases hj with rfl | hj
          · exact Bool.or_eq_true_iff.mpr (Or.inl (by simp))
          · exact Bool.or_eq_true_iff.mpr (Or.inr ((hT j).mpr hj))
      by_cases hx : x ∈ S
      · have hcp : CheckPresent d.chunk_tracker x = true := (hT x).mpr hx
        have heq : provideChunkBounded d x
            = ({ d with chunk_tracker := (CheckPresentAndMarkRecvd d.chunk_tracker x).1 },
                true) := by
          unfold provideChunkBounded
          rw [if_neg hd', if_pos (by rw [hm2]; exact hcp)]
        rw [heq]
        have hins : insert x S = S := Finset.insert_eq_self.mpr hx
        refine ⟨hcc, ?_, ?_⟩
        · intro hcomp
          exact absurd hcomp hd'
        · intro _
          rw [hins]
          refine ⟨?_, hR, hlt⟩
          intro j
          rw [← hins]
          exact htrack j
      · have hcp : CheckPresent d.chunk_tracker x = false := by
          cases hcpv : CheckPresent d.chunk_tracker x
          · rfl
          · exact absurd ((hT x).mp hcpv) hx
        have heq : provideChunkBounded d x
            = ({ d with chunk_tracker := (CheckPresentAndMarkRecvd d.chunk_tracker x).1
                        chunks_recvd := d.chunks_recvd + 1
                        decodeComplete := d.chunks_recvd + 1 == d.chunk_count },
                true) := by
          unfold provideChunkBounded
          rw [if_neg hd', if_neg (by rw [hm2, hcp]; exact Bool.noConfusion)]
        rw [heq]
        have hcard : (insert x S).card = S.card + 1 := Finset.card_insert_of_not_mem hx
        refine ⟨hcc, ?_, ?_⟩
        · intro hcomp
          have hbeq : d.chunks_recvd + 1 = d.chunk_count := by
            simpa using hcomp
          rw [hR, hcc] at hbeq
          rw [hcard, ← hbeq]
        · intro hncomp
          have hne : ¬ d.chunks_recvd + 1 = d.chunk_count := by
            intro e
            rw [e] at hncomp
            simp at hncomp
          rw [hR, hcc] at hne
          exact ⟨htrack, by rw [hcard, hR], by rw [hcard]; omega⟩

theorem bInv_run (data_chunks : ℕ) :
    ∀ (l : List ℕ) (d : BoundedFECDecoder) (S : Finset ℕ), BInv data_chunks d S →
      BInv data_chunks (runBounded d l) (S ∪ l.toFinset)
  | [], d, S, h => by simpa using h
  | x :: l, d, S, h => by
      have h2 := bInv_run data_chunks l (provideChunkBounded d x).1 (insert x S)
        (bInv_step data_chunks d S x h)
      have hset : insert x S ∪ l.toFinset = S ∪ (x :: l).toFinset := by
        rw [List.toFinset_cons, Finset.insert_union, Finset.union_insert]
      show BInv data_chunks (runBounded (provideChunkBounded d x).1 l) (S ∪ (x :: l).toFinset)
      rw [← hset]
      exact h2

/-- C2.  Bounded-mode exactness: for `2 ≤ data_chunk_count ≤ 27`, over
any delivery sequence of chunk ids (any order, any mix of data and
repair ids, duplicates allowed), the bounded decode session is
`DecodeReady` exactly when at least `data_chunk_count` distinct ids
have been provided — so it becomes ready at the
`data_chunk_count`-th distinct id and never before. -/
theorem bounded_mode_exactness (data_chunks : ℕ) (l : List ℕ)
    (h2 : 2 ≤ data_chunks) (h27 : data_chunks ≤ CM256_MAX_CHUNKS) :
    (runBounded (BoundedFECDecoder.init data_chunks) l).decodeComplete = true
      ↔ data_chunks ≤ l.toFinset.card := by
  have h := bInv_run data_chunks l (BoundedFECDecoder.init data_chunks) ∅
    (bInv_init data_chunks (by omega))
  rw [Finset.empty_union] at h
  obtain ⟨hcc, hC, hA⟩ := h
  constructor
  · exact hC
  · intro hge
    cases hcomp : (runBounded (BoundedFECDecoder.init data_chunks) l).decodeComplete
    · obtain ⟨_, _, hlt⟩ := hA hcomp
      omega
    · rfl

/-- C2 witness: a 2-data-chunk bounded session becomes ready on the
delivery sequence `[0, 0, 5]` — two distinct ids — and the theorem's
iff reflects it. -/
theorem bounded_mode_exactness_witness :
    (2 ≤ 2 ∧ 2 ≤ CM256_MAX_CHUNKS)
    ∧ ((runBounded (BoundedFECDecoder.init 2) [0, 0, 5]).decodeComplete = true
        ↔ 2 ≤ ([0, 0, 5] : List ℕ).toFinset.card)
    ∧ (runBounded (BoundedFECDecoder.init 2) [0, 0, 5]).decodeComplete = true :=
  ⟨⟨by decide, by decide⟩,
    bounded_mode_exactness 2 [0, 0, 5] (by decide) (by decide),
    (bounded_mode_exactness 2 [0, 0, 5] (by decide) (by decide)).mpr (by decide)⟩

end FEC
